import Mathlib

/-!
Shallow embedding of the hybrid retrieval / result-ranking engine of the
slack-ai-documents repository, together with theorems settling the frozen
claims about it.

Scores are modelled as rationals (`ℚ`): the Python code computes with floats,
but every claim here is about the algorithmic structure (filtering,
sorting, running sums, weighted fusion), which is faithfully captured by
exact rational arithmetic on the same expressions.
-/

namespace SlackAIDocs

/-! ## Stable descending sort

`sorted(xs, key=..., reverse=True)` in Python is a stable sort putting larger
keys first; among equal keys the original relative order is preserved.  Any
stable sort realises that specification; we use insertion sort processed from
the right, inserting each (earlier) element before the first element whose key
is not larger. -/

def insDesc {α : Type} (f : α → ℚ) (a : α) : List α → List α
  | [] => [a]
  | b :: bs => if f b ≤ f a then a :: b :: bs else b :: insDesc f a bs

def sortDesc {α : Type} (f : α → ℚ) : List α → List α
  | [] => []
  | x :: xs => insDesc f x (sortDesc f xs)

theorem insDesc_perm {α : Type} (f : α → ℚ) (a : α) (l : List α) :
    List.Perm (insDesc f a l) (a :: l) := by
  induction l with
  | nil => simp [insDesc]
  | cons b bs ih =>
    by_cases h : f b ≤ f a
    · simp [insDesc, h]
    · simp only [insDesc, if_neg h]
      exact (List.Perm.cons b ih).trans (List.Perm.swap a b bs)

theorem sortDesc_perm {α : Type} (f : α → ℚ) (l : List α) :
    List.Perm (sortDesc f l) l := by
  induction l with
  | nil => simp [sortDesc]
  | cons x xs ih =>
    exact (insDesc_perm f x (sortDesc f xs)).trans (List.Perm.cons x ih)

theorem mem_sortDesc {α : Type} (f : α → ℚ) (l : List α) (a : α) :
    a ∈ sortDesc f l ↔ a ∈ l :=
  (sortDesc_perm f l).mem_iff

theorem insDesc_pairwise {α : Type} (f : α → ℚ) (a : α) (l : List α)
    (h : List.Pairwise (fun x y => f y ≤ f x) l) :
    List.Pairwise (fun x y => f y ≤ f x) (insDesc f a l) := by
  induction l with
  | nil => simp [insDesc]
  | cons b bs ih =>
    by_cases hba : f b ≤ f a
    · simp only [insDesc, if_pos hba]
      refine List.pairwise_cons.mpr ⟨?_, h⟩
      intro y hy
      rcases List.mem_cons.mp hy with hy | hy
      · subst hy; exact hba
      · exact le_trans ((List.pairwise_cons.mp h).1 y hy) hba
    · simp only [insDesc, if_neg hba]
      rcases List.pairwise_cons.mp h with ⟨hb, hbs⟩
      refine List.pairwise_cons.mpr ⟨?_, ih hbs⟩
      intro y hy
      rcases List.mem_cons.mp ((insDesc_perm f a bs).mem_iff.mp hy) with hy | hy
      · subst hy; exact le_of_not_le hba
      · exact hb y hy

theorem sortDesc_pairwise {α : Type} (f : α → ℚ) (l : List α) :
    List.Pairwise (fun x y => f y ≤ f x) (sortDesc f l) := by
  induction l with
  | nil => simp [sortDesc]
  | cons x xs ih => exact insDesc_pairwise f x (sortDesc f xs) ih

/-! ## GeminiSearcher result selection (`src/search/gemini_searcher.py`)

A parsed element of the model's JSON array is a Python dict read only through
`result.get(key, default)`; we model it as a record of optional fields. -/

/-- `TOP_P_THRESHOLD = 2.0` from `src/config/config.py`. -/
def TOP_P_THRESHOLD : ℚ := 2

/-- One parsed element of the JSON array returned by the relevance-query
provider: a dict whose keys may each be missing. -/
structure RawResult where
  score : Option ℚ
  text : Option String
  explanation : Option String
  source : Option String
  deriving DecidableEq, Repr

/-- The formatted dict appended to `formatted_results` (metadata is reduced to
the fields the claims mention: the source name and the relevance
explanation). -/
structure Formatted where
  text : String
  score : ℚ
  source : String
  relevance_explanation : String
  deriving DecidableEq, Repr

/-- `result.get('score', 0)`, the value used both by the threshold filter and
the sort key and the cumulative sum. -/
def scoreKey (r : RawResult) : ℚ := r.score.getD 0

/-- Building one element of `formatted_results` from a parsed result. -/
def formatResult (r : RawResult) : Formatted :=
  { text := r.text.getD ""
    score := scoreKey r
    source := r.source.getD ""
    relevance_explanation := r.explanation.getD "" }

/-- `[result for result in results if result.get('score', 0) >= 0.90]`. -/
def thresholdFilter (results : List RawResult) : List RawResult :=
  results.filter (fun r => decide ((0.90 : ℚ) ≤ scoreKey r))

/-- The `for result in sorted(...)` loop: walk the sorted survivors keeping a
running `cumulative_score`; append while `cumulative_score + score <=
TOP_P_THRESHOLD`, `break` otherwise. -/
def topPWalk (B : ℚ) (acc : ℚ) : List RawResult → List Formatted
  | [] => []
  | r :: rs =>
    if acc + scoreKey r ≤ B then formatResult r :: topPWalk B (acc + scoreKey r) rs
    else []

/-- Lines 231–263 of `GeminiSearcher.search`: threshold filter, stable sort by
score descending, then the cumulative-budget walk. -/
def geminiSelect (results : List RawResult) : List Formatted :=
  topPWalk TOP_P_THRESHOLD 0 (sortDesc scoreKey (thresholdFilter results))

/-- Number of elements the budget walk admits. -/
def walkLen (B : ℚ) (acc : ℚ) : List RawResult → Nat
  | [] => 0
  | r :: rs =>
    if acc + scoreKey r ≤ B then walkLen B (acc + scoreKey r) rs + 1
    else 0

/-- A prefix is budget-admissible when every successive admission keeps the
running sum within `B`. -/
def budgetOk (B : ℚ) (acc : ℚ) : List RawResult → Bool
  | [] => true
  | r :: rs => decide (acc + scoreKey r ≤ B) && budgetOk B (acc + scoreKey r) rs

theorem topPWalk_eq_take (B acc : ℚ) (l : List RawResult) :
    topPWalk B acc l = (l.take (walkLen B acc l)).map formatResult := by
  induction l generalizing acc with
  | nil => simp [topPWalk, walkLen]
  | cons r rs ih =>
    by_cases h : acc + scoreKey r ≤ B
    · simp [topPWalk, walkLen, h, ih]
    · simp [topPWalk, walkLen, h]

theorem budgetOk_take_walkLen (B acc : ℚ) (l : List RawResult) :
    budgetOk B acc (l.take (walkLen B acc l)) = true := by
  induction l generalizing acc with
  | nil => simp [walkLen, budgetOk]
  | cons r rs ih =>
    by_cases h : acc + scoreKey r ≤ B
    · simp [walkLen, budgetOk, h, ih]
    · simp [walkLen, budgetOk, h]

theorem walkLen_maximal (B : ℚ) (l : List RawResult) :
    ∀ (m : Nat) (acc : ℚ), m ≤ l.length → budgetOk B acc (l.take m) = true →
      m ≤ walkLen B acc l := by
  induction l with
  | nil => intro m acc hm _; simp at hm; simp [hm, walkLen]
  | cons r rs ih =>
    intro m acc hm hok
    cases m with
    | zero => exact Nat.zero_le _
    | succ m =>
      simp only [List.take_succ_cons, budgetOk, Bool.and_eq_true, decide_eq_true_eq] at hok
      simp only [walkLen, if_pos hok.1]
      exact Nat.succ_le_succ (ih m _ (Nat.le_of_succ_le_succ hm) hok.2)

theorem topPWalk_sum_le (B : ℚ) (l : List RawResult) :
    ∀ acc : ℚ, acc ≤ B → acc + ((topPWalk B acc l).map Formatted.score).sum ≤ B := by
  induction l with
  | nil => intro acc h; simpa [topPWalk] using h
  | cons r rs ih =>
    intro acc hacc
    by_cases h : acc + scoreKey r ≤ B
    · simp only [topPWalk, if_pos h, List.map_cons, List.sum_cons]
      have := ih (acc + scoreKey r) h
      calc acc + (Formatted.score (formatResult r) +
            ((topPWalk B (acc + scoreKey r) rs).map Formatted.score).sum)
          = (acc + scoreKey r) +
            ((topPWalk B (acc + scoreKey r) rs).map Formatted.score).sum := by
            simp [formatResult]; ring
        _ ≤ B := this
    · simpa [topPWalk, if_neg h] using hacc

theorem mem_thresholdFilter (results : List RawResult) (r : RawResult) :
    r ∈ thresholdFilter results ↔ r ∈ results ∧ (0.90 : ℚ) ≤ scoreKey r := by
  simp [thresholdFilter]

theorem geminiSelect_mem_score (results : List RawResult) (o : Formatted)
    (ho : o ∈ geminiSelect results) : (0.90 : ℚ) ≤ o.score := by
  unfold geminiSelect at ho
  rw [topPWalk_eq_take] at ho
  rcases List.mem_map.mp ho with ⟨r, hr, rfl⟩
  have hr' : r ∈ sortDesc scoreKey (thresholdFilter results) := List.mem_of_mem_take hr
  have := ((mem_thresholdFilter results r).mp ((mem_sortDesc _ _ r).mp hr')).2
  simpa [formatResult] using this

/-- C1: `GeminiSearcher.search` discards candidates with score < 0.90, sorts
survivors by score descending, and keeps exactly the maximal prefix of the
sorted list in which each admission keeps the running score sum within
`TOP_P_THRESHOLD`; the output is in descending-score order, every kept score
is ≥ 0.90, and the sum of kept scores never exceeds the budget. -/
theorem gemini_cumulative_budget_filter (results : List RawResult)
    (h : ∀ r ∈ results, 0 ≤ scoreKey r ∧ scoreKey r ≤ 1) :
    (∀ o ∈ geminiSelect results, (0.90 : ℚ) ≤ o.score) ∧
    List.Pairwise (fun a b => Formatted.score b ≤ Formatted.score a)
      (geminiSelect results) ∧
    ((geminiSelect results).map Formatted.score).sum ≤ TOP_P_THRESHOLD ∧
    (∃ n, geminiSelect results =
        ((sortDesc scoreKey (thresholdFilter results)).take n).map formatResult ∧
      budgetOk TOP_P_THRESHOLD 0
        ((sortDesc scoreKey (thresholdFilter results)).take n) = true ∧
      ∀ m ≤ (sortDesc scoreKey (thresholdFilter results)).length,
        budgetOk TOP_P_THRESHOLD 0
          ((sortDesc scoreKey (thresholdFilter results)).take m) = true → m ≤ n) := by
  clear h
  refine ⟨geminiSelect_mem_score results, ?_, ?_, ?_⟩
  · unfold geminiSelect
    rw [topPWalk_eq_take]
    refine List.pairwise_map.mpr ?_
    exact ((sortDesc_pairwise scoreKey (thresholdFilter results)).sublist
      (List.take_sublist _ _)).imp (fun hxy => by simpa [formatResult] using hxy)
  · have h0 : (0 : ℚ) ≤ TOP_P_THRESHOLD := by norm_num [TOP_P_THRESHOLD]
    have := topPWalk_sum_le TOP_P_THRESHOLD
      (sortDesc scoreKey (thresholdFilter results)) 0 h0
    simpa [geminiSelect] using this
  · refine ⟨walkLen TOP_P_THRESHOLD 0 (sortDesc scoreKey (thresholdFilter results)),
      ?_, ?_, ?_⟩
    · exact topPWalk_eq_take _ _ _
    · exact budgetOk_take_walkLen _ _ _
    · intro m hm hok
      exact walkLen_maximal TOP_P_THRESHOLD _ m 0 hm hok

/-- First candidate of the two-candidate scenario from the spec (§8). -/
def specTop : RawResult :=
  { score := some 0.95, text := some "x", explanation := some "e", source := some "doc1" }

/-- Second candidate of the two-candidate scenario from the spec (§8). -/
def specSecond : RawResult :=
  { score := some 0.80, text := some "y", explanation := some "f", source := some "doc1" }

/-- The two-candidate scenario from the spec (§8): scores 0.95 and 0.80 with
`T_min = 0.90`, `B = 2.0`. -/
def specScenarioResults : List RawResult := [specTop, specSecond]

/-- Witness for C1 on the spec's two-candidate scenario. -/
theorem gemini_cumulative_budget_filter_witness :
    (∀ r ∈ specScenarioResults, 0 ≤ scoreKey r ∧ scoreKey r ≤ 1) ∧
    ((∀ o ∈ geminiSelect specScenarioResults, (0.90 : ℚ) ≤ o.score) ∧
    List.Pairwise (fun a b => Formatted.score b ≤ Formatted.score a)
      (geminiSelect specScenarioResults) ∧
    ((geminiSelect specScenarioResults).map Formatted.score).sum ≤ TOP_P_THRESHOLD ∧
    (∃ n, geminiSelect specScenarioResults =
        ((sortDesc scoreKey (thresholdFilter specScenarioResults)).take n).map formatResult ∧
      budgetOk TOP_P_THRESHOLD 0
        ((sortDesc scoreKey (thresholdFilter specScenarioResults)).take n) = true ∧
      ∀ m ≤ (sortDesc scoreKey (thresholdFilter specScenarioResults)).length,
        budgetOk TOP_P_THRESHOLD 0
          ((sortDesc scoreKey (thresholdFilter specScenarioResults)).take m) = true → m ≤ n)) :=
  ⟨by norm_num [specScenarioResults, specTop, specSecond, scoreKey],
   gemini_cumulative_budget_filter specScenarioResults
     (by norm_num [specScenarioResults, specTop, specSecond, scoreKey])⟩

/-- A single parsed candidate whose self-reported score (3) alone exceeds the
budget `TOP_P_THRESHOLD = 2`. -/
def loneOverBudget : List RawResult :=
  [{ score := some 3, text := some "a", explanation := some "e", source := some "doc1" }]

/-- Counterexample to C5 as stated: this candidate survives the 0.90 threshold
(so the survivor set is non-empty), yet the kept set is empty, because the
code applies the budget test `cumulative_score + score <= TOP_P_THRESHOLD`
to the first admission as well. -/
theorem gemini_first_admission_cex :
    thresholdFilter loneOverBudget ≠ [] ∧ geminiSelect loneOverBudget = [] := by
  constructor
  · norm_num [thresholdFilter, loneOverBudget, scoreKey, List.filter]
  · norm_num [geminiSelect, thresholdFilter, loneOverBudget, scoreKey, List.filter,
      sortDesc, insDesc, topPWalk, TOP_P_THRESHOLD]

/-- C5 (amended): when every score is at most the budget (in particular for
scores in [0,1], since `TOP_P_THRESHOLD = 2`), a non-empty survivor set yields
a non-empty kept set; the code checks the budget even on the first admission,
so a lone survivor scoring above the budget is discarded (see the
counterexample). -/
theorem gemini_first_admission (results : List RawResult)
    (h : ∀ r ∈ results, scoreKey r ≤ TOP_P_THRESHOLD)
    (hne : thresholdFilter results ≠ []) :
    geminiSelect results ≠ [] := by
  unfold geminiSelect
  cases hs : sortDesc scoreKey (thresholdFilter results) with
  | nil =>
    exfalso
    have hperm := sortDesc_perm scoreKey (thresholdFilter results)
    rw [hs] at hperm
    exact hne hperm.symm.eq_nil
  | cons r rs =>
    have hrmem : r ∈ sortDesc scoreKey (thresholdFilter results) := by
      rw [hs]; exact List.mem_cons_self r rs
    have hr : r ∈ results :=
      ((mem_thresholdFilter results r).mp ((mem_sortDesc _ _ r).mp hrmem)).1
    have hle : 0 + scoreKey r ≤ TOP_P_THRESHOLD := by
      rw [zero_add]; exact h r hr
    simp only [topPWalk]
    rw [if_pos hle]
    exact List.cons_ne_nil _ _

/-- Witness for C5 (amended) on a lone in-range candidate. -/
theorem gemini_first_admission_witness :
    (∀ r ∈ specScenarioResults, scoreKey r ≤ TOP_P_THRESHOLD) ∧
    thresholdFilter specScenarioResults ≠ [] ∧
    geminiSelect specScenarioResults ≠ [] :=
  ⟨by norm_num [specScenarioResults, specTop, specSecond, scoreKey, TOP_P_THRESHOLD],
   by norm_num [thresholdFilter, specScenarioResults, specTop, specSecond, scoreKey,
     List.filter],
   gemini_first_admission specScenarioResults
     (by norm_num [specScenarioResults, specTop, specSecond, scoreKey, TOP_P_THRESHOLD])
     (by norm_num [thresholdFilter, specScenarioResults, specTop, specSecond, scoreKey,
       List.filter])⟩

/-- C10: reading every field of a parsed result with a default makes the
selection total, and a result with no `score` key is read as score 0, falls
below the 0.90 threshold, and never appears: erasing all score-less results
leaves the output unchanged, and every emitted score is ≥ 0.90 (whereas a
score-less result could only emit score 0). -/
theorem gemini_missing_score_discarded (results : List RawResult) :
    geminiSelect results = geminiSelect (results.filter (fun r => r.score.isSome)) ∧
    ∀ o ∈ geminiSelect results, (0.90 : ℚ) ≤ o.score := by
  constructor
  · have hfil : thresholdFilter (results.filter (fun r => r.score.isSome)) =
        thresholdFilter results := by
      unfold thresholdFilter
      induction results with
      | nil => rfl
      | cons r rs ih =>
        cases hsc : r.score with
        | none =>
          have : ¬ ((0.90 : ℚ) ≤ scoreKey r) := by
            simp [scoreKey, hsc]; norm_num
          simp [hsc, this, ih]
        | some q =>
          by_cases hq : (0.90 : ℚ) ≤ scoreKey r <;> simp [hsc, hq, ih]
    unfold geminiSelect
    rw [hfil]
  · exact geminiSelect_mem_score results

/-- Witness for C10: a concrete emitted result of the spec scenario scores
at least 0.90. -/
theorem gemini_missing_score_discarded_witness :
    formatResult specTop ∈ geminiSelect specScenarioResults ∧
    (0.90 : ℚ) ≤ (formatResult specTop).score :=
  ⟨by norm_num [geminiSelect, thresholdFilter, specScenarioResults, specTop, specSecond,
      scoreKey, List.filter, sortDesc, insDesc, topPWalk, TOP_P_THRESHOLD, formatResult],
   (gemini_missing_score_discarded specScenarioResults).2 _
     (by norm_num [geminiSelect, thresholdFilter, specScenarioResults, specTop, specSecond,
       scoreKey, List.filter, sortDesc, insDesc, topPWalk, TOP_P_THRESHOLD, formatResult])⟩

/-! ## JSON repair pipeline (`GeminiSearcher._clean_json_response` and the
line-scan fallback of `GeminiSearcher.search`)

`json.loads` is Python-standard-library code, not repository code; it is
abstracted as a parameter `jloads` returning `none` exactly when parsing
raises `json.JSONDecodeError`.  The repository's own repair steps (code-fence
stripping, control-character stripping, `json.dumps` escaping, and the
bracket line scan) are embedded concretely. -/

/-- Lower-case hexadecimal digit, as produced by Python's `json.dumps`. -/
def hexDigitChar (n : Nat) : Char :=
  if n < 10 then Char.ofNat (48 + n) else Char.ofNat (87 + n)

/-- Four-digit hexadecimal rendering used in `\uXXXX` escapes. -/
def hex4 (n : Nat) : String :=
  String.mk [hexDigitChar (n / 4096 % 16), hexDigitChar (n / 256 % 16),
    hexDigitChar (n / 16 % 16), hexDigitChar (n % 16)]

/-- Python `json.dumps` escape of one character outside the printable ASCII
range (`ensure_ascii=True`): `\uXXXX`, with a surrogate pair above U+FFFF. -/
def uEsc (c : Char) : String :=
  let n := c.toNat
  if n < 65536 then "\\u" ++ hex4 n
  else
    let m := n - 65536
    "\\u" ++ hex4 (55296 + m / 1024) ++ "\\u" ++ hex4 (56320 + m % 1024)

/-- How Python's `json.dumps` renders one character of a string
(`ensure_ascii=True`): escape quotes, backslashes and control characters, keep
printable ASCII, `\uXXXX` for the rest. -/
def jsonDumpsEscapeChar (c : Char) : String :=
  if c = '"' then "\\\""
  else if c = '\\' then "\\\\"
  else if c = '\n' then "\\n"
  else if c = '\r' then "\\r"
  else if c = '\t' then "\\t"
  else if 32 ≤ c.toNat ∧ c.toNat ≤ 126 then String.singleton c
  else uEsc c

/-- `GeminiSearcher._clean_json_response`, main path (none of its steps can
raise, so the two fallback handlers are dead): strip markdown fences, replace
literal `\n` sequences by spaces, drop control characters other than
newline/carriage-return/tab, apply the `json.dumps(...)[1:-1]` escaping, and
strip surrounding whitespace. -/
def clean_json_response (text : String) : String :=
  let t1 := ((text.replace "```json" "").replace "```" "").replace "\\n" " "
  let t2 := String.mk (t1.data.filter
    (fun c => decide (32 ≤ c.toNat) || c == '\n' || c == '\r' || c == '\t'))
  let t3 := String.join (t2.data.map jsonDumpsEscapeChar)
  t3.trim

/-- The line-by-line bracket scan of `GeminiSearcher.search` (lines 212–224):
walk the lines, start collecting at the first line containing `[`, stop at the
first collected-region line containing `]`. -/
def scanJsonLines : List String → Bool → List String → List String
  | [], _, acc => acc.reverse
  | l :: ls, inJson, acc =>
    let inJson' := inJson || l.contains '['
    let acc' := if inJson' then l :: acc else acc
    if l.contains ']' then acc'.reverse else scanJsonLines ls inJson' acc'

/-- The repaired text handed to the second `json.loads` attempt. -/
def lineScanRepair (text : String) : String :=
  String.intercalate "\n" (scanJsonLines (text.splitOn "\n") false [])

/-- The shape of a successfully parsed provider response, as far as the search
code inspects it: either a JSON array of result objects, or some other JSON
value (for which `isinstance(results, list)` fails). -/
inductive PyVal where
  | arr (items : List RawResult)
  | nonArray
  deriving DecidableEq, Repr

/-- The parse-with-repair pipeline of `GeminiSearcher.search` (lines 204–225):
first `json.loads` on the cleaned text; on `JSONDecodeError`, `json.loads` on
the line-scanned text.  `jloads` abstracts `json.loads` (`none` =
`JSONDecodeError`). -/
def parsePhase (jloads : String → Option PyVal) (raw : String) : Option PyVal :=
  match jloads (clean_json_response raw) with
  | some v => some v
  | none => jloads (lineScanRepair raw)

/-- Lines 200–271 of `GeminiSearcher.search`, from response text to formatted
results: parse with repair; a second `JSONDecodeError` is caught and yields
`[]`; a non-list value yields `[]`; a list goes through the threshold/top-p
selection. -/
def geminiSearchPhase (jloads : String → Option PyVal) (raw : String) : List Formatted :=
  match parsePhase jloads raw with
  | some (.arr results) => geminiSelect results
  | some .nonArray => []
  | none => []

/-- C8: if the response text cannot be parsed as a JSON array even after the
repair pipeline (fence/control-character stripping, then the bracket line
scan), the search for that batch returns the empty list instead of raising. -/
theorem gemini_malformed_response_degrades (jloads : String → Option PyVal)
    (raw : String)
    (h : ∀ results, parsePhase jloads raw ≠ some (.arr results)) :
    geminiSearchPhase jloads raw = [] := by
  unfold geminiSearchPhase
  cases hp : parsePhase jloads raw with
  | none => rfl
  | some v =>
    cases v with
    | arr results => exact absurd hp (h results)
    | nonArray => rfl

/-- The truncated malformed response from the spec's scenario (§8). -/
def truncatedResponse : String := "```json\n[\x7b\"text\":\"a\""

/-- Witness for C8 at the spec's truncated-response scenario, with a parser
that rejects everything. -/
theorem gemini_malformed_response_degrades_witness :
    (∀ results, parsePhase (fun _ => none) truncatedResponse ≠ some (.arr results)) ∧
    geminiSearchPhase (fun _ => none) truncatedResponse = [] :=
  ⟨by simp [parsePhase],
   gemini_malformed_response_degrades (fun _ => none) truncatedResponse
     (by simp [parsePhase])⟩

/-! ## HybridSearcher score fusion (`src/search/hybrid_searcher.py`)

`HybridSearcher.search` builds a Python dict `all_results` keyed by chunk
index: a first loop over the semantic hits inserts `α × score` entries tagged
`"semantic"`, a second loop over the keyword hits adds `(1 − α) × score` into
an existing entry (appending the `"keyword"` tag) or inserts a fresh
keyword-only entry.  A Python dict is insertion-ordered and assignment to an
existing key keeps its position, which `dictSet` reproduces on an association
list.  The mixing weight `HYBRID_ALPHA` is imported from the configuration
but not defined there, so it stays an explicit parameter `alpha`. -/

structure Chunk where
  text : String
  metadata : String
  deriving DecidableEq, Repr

/-- One element of the lists `_semantic_search` / `_keyword_search` return:
`{"index": idx, "score": score, "chunk": chunk}`. -/
structure MethodHit where
  index : Nat
  score : ℚ
  chunk : Chunk
  deriving DecidableEq, Repr

/-- One value of the `all_results` dict. -/
structure FusedResult where
  text : String
  metadata : String
  score : ℚ
  found_by : List String
  deriving DecidableEq, Repr

/-- `d[k] = v` on an insertion-ordered dict: overwrite in place if the key
exists, else append at the end. -/
def dictSet {κ ν : Type} [DecidableEq κ] : List (κ × ν) → κ → ν → List (κ × ν)
  | [], k, v => [(k, v)]
  | (k', v') :: t, k, v =>
    if k' = k then (k', v) :: t else (k', v') :: dictSet t k v

/-- `d[k]` / `k in d` on the same dict. -/
def dictGet {κ ν : Type} [DecidableEq κ] (i : κ) : List (κ × ν) → Option ν
  | [] => none
  | (k, v) :: t => if i = k then some v else dictGet i t

/-- The entry the semantic loop writes. -/
def semEntry (alpha : ℚ) (res : MethodHit) : FusedResult :=
  { text := res.chunk.text, metadata := res.chunk.metadata,
    score := alpha * res.score, found_by := ["semantic"] }

/-- The entry the keyword loop writes for a chunk not seen by semantic
search. -/
def kwEntry (alpha : ℚ) (res : MethodHit) : FusedResult :=
  { text := res.chunk.text, metadata := res.chunk.metadata,
    score := (1 - alpha) * res.score, found_by := ["keyword"] }

/-- The in-place update the keyword loop applies to an entry already present:
`score += (1 - α) × raw` and `found_by.append("keyword")`. -/
def kwBump (alpha : ℚ) (f : FusedResult) (res : MethodHit) : FusedResult :=
  { f with score := f.score + (1 - alpha) * res.score,
           found_by := f.found_by ++ ["keyword"] }

/-- One step of the first (semantic) loop of `HybridSearcher.search`. -/
def addSemantic (alpha : ℚ) (m : List (Nat × FusedResult)) (res : MethodHit) :
    List (Nat × FusedResult) :=
  dictSet m res.index (semEntry alpha res)

/-- One step of the second (keyword) loop of `HybridSearcher.search`. -/
def addKeyword (alpha : ℚ) (m : List (Nat × FusedResult)) (res : MethodHit) :
    List (Nat × FusedResult) :=
  match dictGet res.index m with
  | some f => dictSet m res.index (kwBump alpha f res)
  | none => dictSet m res.index (kwEntry alpha res)

/-- The fused `all_results` dict (semantic loop, then keyword loop). -/
def hybridFuse (alpha : ℚ) (sem kw : List MethodHit) : List (Nat × FusedResult) :=
  kw.foldl (addKeyword alpha) (sem.foldl (addSemantic alpha) [])

/-- The final statement of `HybridSearcher.search`: sort the dict values by
combined score descending (stable) and keep the first `k`. -/
def hybridSearch (alpha : ℚ) (k : Nat) (sem kw : List MethodHit) : List FusedResult :=
  (sortDesc FusedResult.score ((hybridFuse alpha sem kw).map Prod.snd)).take k

/-- The in-place update a semantic hit would apply when keyword results are
processed first: `score += α × raw` and `found_by.append("semantic")`. -/
def semBump (alpha : ℚ) (f : FusedResult) (res : MethodHit) : FusedResult :=
  { f with score := f.score + alpha * res.score,
           found_by := f.found_by ++ ["semantic"] }

/-- The keyword loop run first (as the inserting pass). -/
def addKeywordPrimary (alpha : ℚ) (m : List (Nat × FusedResult)) (res : MethodHit) :
    List (Nat × FusedResult) :=
  dictSet m res.index (kwEntry alpha res)

/-- The semantic loop run second (as the updating pass). -/
def addSemanticSecondary (alpha : ℚ) (m : List (Nat × FusedResult)) (res : MethodHit) :
    List (Nat × FusedResult) :=
  match dictGet res.index m with
  | some f => dictSet m res.index (semBump alpha f res)
  | none => dictSet m res.index (semEntry alpha res)

/-- Fusion with the two method loops exchanged (keyword first, then
semantic), each method keeping its own weight. -/
def hybridFuseSwapped (alpha : ℚ) (sem kw : List MethodHit) :
    List (Nat × FusedResult) :=
  sem.foldl (addSemanticSecondary alpha) (kw.foldl (addKeywordPrimary alpha) [])

/-- `HybridSearcher.search` with the method loops exchanged. -/
def hybridSearchSwapped (alpha : ℚ) (k : Nat) (sem kw : List MethodHit) :
    List FusedResult :=
  (sortDesc FusedResult.score ((hybridFuseSwapped alpha sem kw).map Prod.snd)).take k

theorem dictGet_dictSet {κ ν : Type} [DecidableEq κ] (m : List (κ × ν)) (k : κ) (v : ν)
    (i : κ) :
    dictGet i (dictSet m k v) = if i = k then some v else dictGet i m := by
  induction m with
  | nil => simp [dictSet, dictGet]
  | cons p t ih =>
    obtain ⟨k', v'⟩ := p
    by_cases hk : k' = k
    · subst hk
      by_cases hik : i = k' <;> simp [dictSet, dictGet, hik]
    · by_cases hik : i = k'
      · subst hik
        simp [dictSet, dictGet, hk]
      · simp [dictSet, dictGet, hk, hik, ih]

theorem dictGet_foldl_set (e : MethodHit → FusedResult) (l : List MethodHit)
    (init : List (Nat × FusedResult)) (i : Nat) (hi : i ∉ l.map MethodHit.index) :
    dictGet i (l.foldl (fun m res => dictSet m res.index (e res)) init) =
      dictGet i init := by
  induction l generalizing init with
  | nil => rfl
  | cons s ss ih =>
    simp only [List.map_cons, List.mem_cons, not_or] at hi
    simp only [List.foldl_cons]
    rw [ih _ hi.2, dictGet_dictSet, if_neg hi.1]

theorem dictGet_foldl_set_mem (e : MethodHit → FusedResult) (l : List MethodHit)
    (init : List (Nat × FusedResult)) (h : MethodHit) (hmem : h ∈ l)
    (hnd : (l.map MethodHit.index).Nodup) :
    dictGet h.index (l.foldl (fun m res => dictSet m res.index (e res)) init) =
      some (e h) := by
  induction l generalizing init with
  | nil => cases hmem
  | cons s ss ih =>
    simp only [List.map_cons, List.nodup_cons] at hnd
    rcases List.mem_cons.mp hmem with rfl | hmem'
    · simp only [List.foldl_cons]
      rw [dictGet_foldl_set e ss _ h.index hnd.1, dictGet_dictSet, if_pos rfl]
    · simp only [List.foldl_cons]
      exact ih _ hmem' hnd.2

theorem dictGet_foldl_upd (e : MethodHit → FusedResult)
    (b : FusedResult → MethodHit → FusedResult)
    (l : List MethodHit) (init : List (Nat × FusedResult)) (i : Nat)
    (hi : i ∉ l.map MethodHit.index) :
    dictGet i (l.foldl (fun m res => match dictGet res.index m with
      | some f => dictSet m res.index (b f res)
      | none => dictSet m res.index (e res)) init) = dictGet i init := by
  induction l generalizing init with
  | nil => rfl
  | cons s ss ih =>
    simp only [List.map_cons, List.mem_cons, not_or] at hi
    simp only [List.foldl_cons]
    rw [ih _ hi.2]
    cases dictGet s.index init with
    | none => simp only [dictGet_dictSet, if_neg hi.1]
    | some f => simp only [dictGet_dictSet, if_neg hi.1]

theorem dictGet_foldl_upd_mem (e : MethodHit → FusedResult)
    (b : FusedResult → MethodHit → FusedResult)
    (l : List MethodHit) (init : List (Nat × FusedResult)) (h : MethodHit)
    (hmem : h ∈ l) (hnd : (l.map MethodHit.index).Nodup) :
    dictGet h.index (l.foldl (fun m res => match dictGet res.index m with
      | some f => dictSet m res.index (b f res)
      | none => dictSet m res.index (e res)) init) =
      (match dictGet h.index init with
       | some f => some (b f h)
       | none => some (e h)) := by
  induction l generalizing init with
  | nil => cases hmem
  | cons s ss ih =>
    simp only [List.map_cons, List.nodup_cons] at hnd
    rcases List.mem_cons.mp hmem with rfl | hmem'
    · simp only [List.foldl_cons]
      rw [dictGet_foldl_upd e b ss _ h.index hnd.1]
      cases dictGet h.index init with
      | none => simp [dictGet_dictSet]
      | some f => simp [dictGet_dictSet]
    · have hne : h.index ≠ s.index := by
        intro hEq
        apply hnd.1
        rw [← hEq]
        exact List.mem_map.mpr ⟨h, hmem', rfl⟩
      have hpres : dictGet h.index (match dictGet s.index init with
          | some f => dictSet init s.index (b f s)
          | none => dictSet init s.index (e s)) = dictGet h.index init := by
        cases dictGet s.index init with
        | none => rw [dictGet_dictSet, if_neg hne]
        | some f => rw [dictGet_dictSet, if_neg hne]
      simp only [List.foldl_cons]
      rw [ih _ hmem' hnd.2, hpres]

theorem addSemantic_eq (alpha : ℚ) :
    addSemantic alpha = fun m res => dictSet m res.index (semEntry alpha res) := rfl

theorem addKeywordPrimary_eq (alpha : ℚ) :
    addKeywordPrimary alpha = fun m res => dictSet m res.index (kwEntry alpha res) := rfl

theorem addKeyword_eq (alpha : ℚ) :
    addKeyword alpha = fun m res => match dictGet res.index m with
      | some f => dictSet m res.index (kwBump alpha f res)
      | none => dictSet m res.index (kwEntry alpha res) := rfl

theorem addSemanticSecondary_eq (alpha : ℚ) :
    addSemanticSecondary alpha = fun m res => match dictGet res.index m with
      | some f => dictSet m res.index (semBump alpha f res)
      | none => dictSet m res.index (semEntry alpha res) := rfl

theorem hybridFuse_sem_only (alpha : ℚ) (sem kw : List MethodHit)
    (hsem : (sem.map MethodHit.index).Nodup) (h : MethodHit) (hmem : h ∈ sem)
    (hk : h.index ∉ kw.map MethodHit.index) :
    dictGet h.index (hybridFuse alpha sem kw) = some (semEntry alpha h) := by
  rw [hybridFuse, addKeyword_eq, addSemantic_eq,
    dictGet_foldl_upd (kwEntry alpha) (kwBump alpha) kw _ h.index hk,
    dictGet_foldl_set_mem (semEntry alpha) sem _ h hmem hsem]

theorem hybridFuse_none (alpha : ℚ) (sem kw : List MethodHit) (i : Nat)
    (hs : i ∉ sem.map MethodHit.index) (hk : i ∉ kw.map MethodHit.index) :
    dictGet i (hybridFuse alpha sem kw) = none := by
  rw [hybridFuse, addKeyword_eq, addSemantic_eq,
    dictGet_foldl_upd (kwEntry alpha) (kwBump alpha) kw _ i hk,
    dictGet_foldl_set (semEntry alpha) sem _ i hs]
  rfl

theorem hybridFuse_kw_only (alpha : ℚ) (sem kw : List MethodHit)
    (hkw : (kw.map MethodHit.index).Nodup) (h : MethodHit) (hmem : h ∈ kw)
    (hs : h.index ∉ sem.map MethodHit.index) :
    dictGet h.index (hybridFuse alpha sem kw) = some (kwEntry alpha h) := by
  rw [hybridFuse, addKeyword_eq, addSemantic_eq,
    dictGet_foldl_upd_mem (kwEntry alpha) (kwBump alpha) kw _ h hmem hkw,
    dictGet_foldl_set (semEntry alpha) sem _ h.index hs]
  rfl

theorem hybridFuse_both (alpha : ℚ) (sem kw : List MethodHit)
    (hsem : (sem.map MethodHit.index).Nodup) (hkw : (kw.map MethodHit.index).Nodup)
    (hs hk : MethodHit) (hsmem : hs ∈ sem) (hkmem : hk ∈ kw)
    (hidx : hs.index = hk.index) :
    dictGet hs.index (hybridFuse alpha sem kw) =
      some (kwBump alpha (semEntry alpha hs) hk) := by
  rw [hybridFuse, addKeyword_eq, addSemantic_eq, hidx,
    dictGet_foldl_upd_mem (kwEntry alpha) (kwBump alpha) kw _ hk hkmem hkw, ← hidx,
    dictGet_foldl_set_mem (semEntry alpha) sem _ hs hsmem hsem]

theorem hybridFuseSwapped_sem_only (alpha : ℚ) (sem kw : List MethodHit)
    (hsem : (sem.map MethodHit.index).Nodup) (h : MethodHit) (hmem : h ∈ sem)
    (hk : h.index ∉ kw.map MethodHit.index) :
    dictGet h.index (hybridFuseSwapped alpha sem kw) = some (semEntry alpha h) := by
  rw [hybridFuseSwapped, addSemanticSecondary_eq, addKeywordPrimary_eq,
    dictGet_foldl_upd_mem (semEntry alpha) (semBump alpha) sem _ h hmem hsem,
    dictGet_foldl_set (kwEntry alpha) kw _ h.index hk]
  rfl

theorem hybridFuseSwapped_none (alpha : ℚ) (sem kw : List MethodHit) (i : Nat)
    (hs : i ∉ sem.map MethodHit.index) (hk : i ∉ kw.map MethodHit.index) :
    dictGet i (hybridFuseSwapped alpha sem kw) = none := by
  rw [hybridFuseSwapped, addSemanticSecondary_eq, addKeywordPrimary_eq,
    dictGet_foldl_upd (semEntry alpha) (semBump alpha) sem _ i hs,
    dictGet_foldl_set (kwEntry alpha) kw _ i hk]
  rfl

theorem hybridFuseSwapped_kw_only (alpha : ℚ) (sem kw : List MethodHit)
    (hkw : (kw.map MethodHit.index).Nodup) (h : MethodHit) (hmem : h ∈ kw)
    (hs : h.index ∉ sem.map MethodHit.index) :
    dictGet h.index (hybridFuseSwapped alpha sem kw) = some (kwEntry alpha h) := by
  rw [hybridFuseSwapped, addSemanticSecondary_eq, addKeywordPrimary_eq,
    dictGet_foldl_upd (semEntry alpha) (semBump alpha) sem _ h.index hs,
    dictGet_foldl_set_mem (kwEntry alpha) kw _ h hmem hkw]

theorem hybridFuseSwapped_both (alpha : ℚ) (sem kw : List MethodHit)
    (hsem : (sem.map MethodHit.index).Nodup) (hkw : (kw.map MethodHit.index).Nodup)
    (hs hk : MethodHit) (hsmem : hs ∈ sem) (hkmem : hk ∈ kw)
    (hidx : hs.index = hk.index) :
    dictGet hs.index (hybridFuseSwapped alpha sem kw) =
      some (semBump alpha (kwEntry alpha hk) hs) := by
  rw [hybridFuseSwapped, addSemanticSecondary_eq, addKeywordPrimary_eq,
    dictGet_foldl_upd_mem (semEntry alpha) (semBump alpha) sem _ hs hsmem hsem, hidx,
    dictGet_foldl_set_mem (kwEntry alpha) kw _ hk hkmem hkw]

/-- C2: fused scoring of `HybridSearcher.search` — a chunk found only by
semantic search gets `α × raw`, one found only by keyword search gets
`(1 − α) × raw`, one found by both gets the sum with both method tags in
`found_by`.  (`HYBRID_ALPHA` is imported but not defined in the repository's
configuration, so the statement holds for every `alpha`.) -/
theorem hybrid_score_fusion (alpha : ℚ) (sem kw : List MethodHit)
    (hsem : (sem.map MethodHit.index).Nodup) (hkw : (kw.map MethodHit.index).Nodup) :
    (∀ h ∈ sem, h.index ∉ kw.map MethodHit.index →
      dictGet h.index (hybridFuse alpha sem kw) =
        some { text := h.chunk.text, metadata := h.chunk.metadata,
               score := alpha * h.score, found_by := ["semantic"] }) ∧
    (∀ h ∈ kw, h.index ∉ sem.map MethodHit.index →
      dictGet h.index (hybridFuse alpha sem kw) =
        some { text := h.chunk.text, metadata := h.chunk.metadata,
               score := (1 - alpha) * h.score, found_by := ["keyword"] }) ∧
    (∀ hs ∈ sem, ∀ hk ∈ kw, hs.index = hk.index →
      dictGet hs.index (hybridFuse alpha sem kw) =
        some { text := hs.chunk.text, metadata := hs.chunk.metadata,
               score := alpha * hs.score + (1 - alpha) * hk.score,
               found_by := ["semantic", "keyword"] }) := by
  refine ⟨?_, ?_, ?_⟩
  · intro h hmem hk
    rw [hybridFuse_sem_only alpha sem kw hsem h hmem hk]
    rfl
  · intro h hmem hs
    rw [hybridFuse_kw_only alpha sem kw hkw h hmem hs]
    rfl
  · intro hs hsmem hk hkmem hidx
    rw [hybridFuse_both alpha sem kw hsem hkw hs hk hsmem hkmem hidx]
    simp [kwBump, semEntry]

/-- A semantic hit used in concrete instantiations: chunk 0 with raw score
0.8. -/
def c2SemHit : MethodHit := ⟨0, 0.8, ⟨"A", "mA"⟩⟩

/-- A keyword hit on the same chunk with raw score 0.5. -/
def c2KwHit : MethodHit := ⟨0, 0.5, ⟨"A", "mA"⟩⟩

/-- Witness for C2: a chunk found by both methods under `α = 0.6`. -/
theorem hybrid_score_fusion_witness :
    (([c2SemHit].map MethodHit.index).Nodup ∧ ([c2KwHit].map MethodHit.index).Nodup) ∧
    dictGet c2SemHit.index (hybridFuse 0.6 [c2SemHit] [c2KwHit]) =
      some { text := c2SemHit.chunk.text, metadata := c2SemHit.chunk.metadata,
             score := 0.6 * c2SemHit.score + (1 - 0.6) * c2KwHit.score,
             found_by := ["semantic", "keyword"] } :=
  ⟨⟨by simp, by simp⟩,
   (hybrid_score_fusion 0.6 [c2SemHit] [c2KwHit] (by simp) (by simp)).2.2
     c2SemHit (by simp) c2KwHit (by simp) rfl⟩

/-- A semantic hit on chunk 0 with raw score 1. -/
def c4SemHit : MethodHit := ⟨0, 1, ⟨"A", "mA"⟩⟩

/-- A keyword hit on the same chunk with raw TF-IDF score 0 — `_keyword_search`
takes the top-k indices of the similarity vector unconditionally, so a chunk
sharing no term with the query appears with score 0. -/
def c4KwHit : MethodHit := ⟨0, 0, ⟨"A", "mA"⟩⟩

/-- Counterexample to C4 as stated: a chunk found by both methods whose
keyword raw score is 0 gets exactly the score it would have received from
semantic search alone — not a strictly higher one. -/
theorem hybrid_multi_method_boost_cex :
    dictGet 0 (hybridFuse (1/2) [c4SemHit] [c4KwHit]) =
      some { text := "A", metadata := "mA", score := 1/2,
             found_by := ["semantic", "keyword"] } ∧
    dictGet 0 (hybridFuse (1/2) [c4SemHit] []) =
      some { text := "A", metadata := "mA", score := 1/2,
             found_by := ["semantic"] } ∧
    ¬ ((1/2 : ℚ) > 1/2) := by
  refine ⟨?_, ?_, by norm_num⟩ <;>
    norm_num [hybridFuse, addSemantic, addKeyword, dictSet, dictGet, semEntry,
      kwBump, c4SemHit, c4KwHit, List.foldl]

/-- C4 (amended): a chunk found by both methods scores strictly higher than it
would from either method alone provided both raw scores are strictly positive
and `α ∈ (0,1)`; with a zero (or negative) raw contribution the fused score is
not strictly higher (see the counterexample). -/
theorem hybrid_multi_method_boost (alpha : ℚ) (sem kw : List MethodHit)
    (h0 : 0 < alpha) (h1 : alpha < 1)
    (hsem : (sem.map MethodHit.index).Nodup) (hkw : (kw.map MethodHit.index).Nodup)
    (hs hk : MethodHit) (hsmem : hs ∈ sem) (hkmem : hk ∈ kw)
    (hidx : hs.index = hk.index) (hspos : 0 < hs.score) (hkpos : 0 < hk.score) :
    ∃ fb fs fk,
      dictGet hs.index (hybridFuse alpha sem kw) = some fb ∧
      dictGet hs.index (hybridFuse alpha sem []) = some fs ∧
      dictGet hk.index (hybridFuse alpha [] kw) = some fk ∧
      fs.score < fb.score ∧ fk.score < fb.score := by
  refine ⟨kwBump alpha (semEntry alpha hs) hk, semEntry alpha hs, kwEntry alpha hk,
    hybridFuse_both alpha sem kw hsem hkw hs hk hsmem hkmem hidx,
    hybridFuse_sem_only alpha sem [] hsem hs hsmem (by simp),
    hybridFuse_kw_only alpha [] kw hkw hk hkmem (by simp), ?_, ?_⟩
  · have hw : 0 < (1 - alpha) * hk.score :=
      mul_pos (by linarith) hkpos
    simp only [kwBump, semEntry]
    linarith
  · have hv : 0 < alpha * hs.score := mul_pos h0 hspos
    simp only [kwBump, semEntry, kwEntry]
    linarith

/-- Witness for C4 (amended) at `α = 0.6`, raw scores 0.8 and 0.5. -/
theorem hybrid_multi_method_boost_witness :
    (0 < (0.6 : ℚ)) ∧ ((0.6 : ℚ) < 1) ∧
    (0 < c2SemHit.score) ∧ (0 < c2KwHit.score) ∧
    ∃ fb fs fk,
      dictGet c2SemHit.index (hybridFuse 0.6 [c2SemHit] [c2KwHit]) = some fb ∧
      dictGet c2SemHit.index (hybridFuse 0.6 [c2SemHit] []) = some fs ∧
      dictGet c2KwHit.index (hybridFuse 0.6 [] [c2KwHit]) = some fk ∧
      fs.score < fb.score ∧ fk.score < fb.score :=
  ⟨by norm_num, by norm_num, by norm_num [c2SemHit], by norm_num [c2KwHit],
   hybrid_multi_method_boost 0.6 [c2SemHit] [c2KwHit] (by norm_num) (by norm_num)
     (by simp) (by simp) c2SemHit c2KwHit (by simp) (by simp) rfl
     (by norm_num [c2SemHit]) (by norm_num [c2KwHit])⟩

/-- A semantic-only hit on chunk 0. -/
def c7SemHit : MethodHit := ⟨0, 1, ⟨"A", "mA"⟩⟩

/-- A keyword-only hit on chunk 1 whose weighted score ties with the weighted
semantic score of chunk 0. -/
def c7KwHit : MethodHit := ⟨1, 1, ⟨"B", "mB"⟩⟩

/-- Counterexample to C7 as stated: with `α = 1/2`, `k = 1`, a semantic-only
hit and a keyword-only hit of equal weighted score, the final truncated output
differs between the two processing orders, because the stable sort breaks the
tie by dict insertion order and the insertion order depends on which method
ran first. -/
theorem hybrid_commutativity_cex :
    hybridSearch (1/2) 1 [c7SemHit] [c7KwHit] ≠
      hybridSearchSwapped (1/2) 1 [c7SemHit] [c7KwHit] := by
  norm_num [hybridSearch, hybridSearchSwapped, hybridFuse, hybridFuseSwapped,
    addSemantic, addKeyword, addKeywordPrimary, addSemanticSecondary, dictSet,
    dictGet, semEntry, kwEntry, c7SemHit, c7KwHit, sortDesc, insDesc, List.foldl]
  intro hAB _
  exact absurd hAB (by decide)

/-- C7 (amended): the fused mapping is commutative in method order — for every
chunk index both orders yield an entry with the same text, metadata and score
and the same set of `found_by` tags (assuming hits with equal index carry the
same chunk, as both lists come from the same corpus); the *truncated sorted
output* however may differ on ties at the cutoff (see the counterexample). -/
theorem hybrid_fusion_commutative (alpha : ℚ) (sem kw : List MethodHit)
    (hsem : (sem.map MethodHit.index).Nodup) (hkw : (kw.map MethodHit.index).Nodup)
    (hcons : ∀ hs ∈ sem, ∀ hk ∈ kw, hs.index = hk.index → hs.chunk = hk.chunk) :
    ∀ i : Nat,
      (dictGet i (hybridFuse alpha sem kw) = none ↔
        dictGet i (hybridFuseSwapped alpha sem kw) = none) ∧
      ∀ f g, dictGet i (hybridFuse alpha sem kw) = some f →
        dictGet i (hybridFuseSwapped alpha sem kw) = some g →
        f.text = g.text ∧ f.metadata = g.metadata ∧ f.score = g.score ∧
        ∀ t, (t ∈ f.found_by ↔ t ∈ g.found_by) := by
  intro i
  by_cases his : i ∈ sem.map MethodHit.index
  · rcases List.mem_map.mp his with ⟨hs, hsmem, hsidx⟩
    by_cases hik : i ∈ kw.map MethodHit.index
    · rcases List.mem_map.mp hik with ⟨hk, hkmem, hkidx⟩
      have hidx : hs.index = hk.index := by rw [hsidx, hkidx]
      have hA := hybridFuse_both alpha sem kw hsem hkw hs hk hsmem hkmem hidx
      have hB := hybridFuseSwapped_both alpha sem kw hsem hkw hs hk hsmem hkmem hidx
      rw [hsidx] at hA hB
      refine ⟨by simp [hA, hB], ?_⟩
      intro f g hf hg
      rw [hA] at hf
      rw [hB] at hg
      injection hf with hf
      injection hg with hg
      subst hf
      subst hg
      have hchunk := hcons hs hsmem hk hkmem hidx
      refine ⟨by simp [kwBump, semBump, semEntry, kwEntry, hchunk],
        by simp [kwBump, semBump, semEntry, kwEntry, hchunk],
        by simp [kwBump, semBump, semEntry, kwEntry]; ring, ?_⟩
      intro t
      simp only [kwBump, semBump, semEntry, kwEntry, List.cons_append,
        List.nil_append]
      constructor <;> intro ht <;> simp only [List.mem_cons,
        List.not_mem_nil, or_false] at ht ⊢ <;> tauto
    · have hA := hybridFuse_sem_only alpha sem kw hsem hs hsmem (hsidx ▸ hik)
      have hB := hybridFuseSwapped_sem_only alpha sem kw hsem hs hsmem (hsidx ▸ hik)
      rw [hsidx] at hA hB
      refine ⟨by simp [hA, hB], ?_⟩
      intro f g hf hg
      rw [hA] at hf
      rw [hB] at hg
      injection hf with hf
      injection hg with hg
      subst hf
      subst hg
      exact ⟨rfl, rfl, rfl, fun t => Iff.rfl⟩
  · by_cases hik : i ∈ kw.map MethodHit.index
    · rcases List.mem_map.mp hik with ⟨hk, hkmem, hkidx⟩
      have hA := hybridFuse_kw_only alpha sem kw hkw hk hkmem (hkidx ▸ his)
      have hB := hybridFuseSwapped_kw_only alpha sem kw hkw hk hkmem (hkidx ▸ his)
      rw [hkidx] at hA hB
      refine ⟨by simp [hA, hB], ?_⟩
      intro f g hf hg
      rw [hA] at hf
      rw [hB] at hg
      injection hf with hf
      injection hg with hg
      subst hf
      subst hg
      exact ⟨rfl, rfl, rfl, fun t => Iff.rfl⟩
    · have hA := hybridFuse_none alpha sem kw i his hik
      have hB := hybridFuseSwapped_none alpha sem kw i his hik
      refine ⟨by simp [hA, hB], ?_⟩
      intro f g hf hg
      rw [hA] at hf
      cases hf

/-- Witness for C7 (amended) at `α = 0.6` on a chunk found by both methods. -/
theorem hybrid_fusion_commutative_witness :
    (([c2SemHit].map MethodHit.index).Nodup ∧ ([c2KwHit].map MethodHit.index).Nodup ∧
      (∀ hs ∈ [c2SemHit], ∀ hk ∈ [c2KwHit], hs.index = hk.index →
        hs.chunk = hk.chunk)) ∧
    ((dictGet 0 (hybridFuse 0.6 [c2SemHit] [c2KwHit]) = none ↔
        dictGet 0 (hybridFuseSwapped 0.6 [c2SemHit] [c2KwHit]) = none) ∧
      ∀ f g, dictGet 0 (hybridFuse 0.6 [c2SemHit] [c2KwHit]) = some f →
        dictGet 0 (hybridFuseSwapped 0.6 [c2SemHit] [c2KwHit]) = some g →
        f.text = g.text ∧ f.metadata = g.metadata ∧ f.score = g.score ∧
        ∀ t, (t ∈ f.found_by ↔ t ∈ g.found_by)) :=
  ⟨⟨by simp, by simp, by simp [c2SemHit, c2KwHit]⟩,
   hybrid_fusion_commutative 0.6 [c2SemHit] [c2KwHit] (by simp) (by simp)
     (by simp [c2SemHit, c2KwHit]) 0⟩

/-! ## Result Grouper (`group_results_by_source` in `src/utils/slack_utils.py`)

The function walks the results once, building an insertion-ordered dict from
source key (`result['metadata'].get('filename', 'Unknown')`) to accumulated
passages/scores/explanations, then formats each group: passages in original
order, explanations joined with a fixed separator, score = max of member
scores.  The output order is the dict's insertion order (the loop over
`grouped.values()`) — there is no sort. -/

/-- The metadata dict of a search result, restricted to the keys the grouper
reads. -/
structure Meta where
  filename : Option String
  relevance_explanation : Option String
  deriving DecidableEq, Repr

/-- One search result handed to the grouper. -/
structure SearchResult where
  text : String
  score : ℚ
  metadata : Meta
  deriving DecidableEq, Repr

/-- `result['metadata'].get('filename', 'Unknown')`. -/
def sourceKey (r : SearchResult) : String := r.metadata.filename.getD "Unknown"

/-- The value stored in the `grouped` dict for one source. -/
structure GroupData where
  source : String
  passages : List String
  scores : List ℚ
  explanations : List String
  metadata : Meta
  deriving DecidableEq, Repr

/-- The three `append` statements of the loop body. -/
def pushGroup (g : GroupData) (r : SearchResult) : GroupData :=
  { g with passages := g.passages ++ [r.text],
           scores := g.scores ++ [r.score],
           explanations := g.explanations ++ [r.metadata.relevance_explanation.getD ""] }

/-- The fresh entry created when a source is first seen (empty lists, the
first member's metadata). -/
def emptyGroup (k : String) (r : SearchResult) : GroupData :=
  { source := k, passages := [], scores := [], explanations := [],
    metadata := r.metadata }

/-- One iteration of the grouping loop. -/
def addToGroups (acc : List (String × GroupData)) (r : SearchResult) :
    List (String × GroupData) :=
  match dictGet (sourceKey r) acc with
  | some g => dictSet acc (sourceKey r) (pushGroup g r)
  | none => dictSet acc (sourceKey r) (pushGroup (emptyGroup (sourceKey r) r) r)

/-- `max(source_data['scores'])` (the lists are non-empty by construction; the
`[]` case is unreachable). -/
def maxScore : List ℚ → ℚ
  | [] => 0
  | x :: xs => xs.foldl max x

/-- One formatted output group. -/
structure GroupedResult where
  source : String
  passages : List String
  score : ℚ
  explanation : String
  metadata : Meta
  deriving DecidableEq, Repr

/-- The second loop of `group_results_by_source`. -/
def formatGroup (g : GroupData) : GroupedResult :=
  { source := g.source, passages := g.passages, score := maxScore g.scores,
    explanation := "Based on these passages: " ++
      String.intercalate " Additionally, " g.explanations,
    metadata := g.metadata }

/-- `group_results_by_source(results)`. -/
def group_results_by_source (results : List SearchResult) : List GroupedResult :=
  ((results.foldl addToGroups []).map Prod.snd).map formatGroup

/-- The members of one source group, in original order. -/
def sameSource (k : String) (results : List SearchResult) : List SearchResult :=
  results.filter (fun r => decide (sourceKey r = k))

theorem dictGet_none_iff {κ ν : Type} [DecidableEq κ] (k : κ) (m : List (κ × ν)) :
    dictGet k m = none ↔ k ∉ m.map Prod.fst := by
  induction m with
  | nil => simp [dictGet]
  | cons p t ih =>
    obtain ⟨k', v'⟩ := p
    by_cases hk : k = k' <;> simp [dictGet, hk, ih]

theorem dictGet_some_mem {κ ν : Type} [DecidableEq κ] (k : κ) (m : List (κ × ν))
    (g : ν) (h : dictGet k m = some g) : (k, g) ∈ m := by
  induction m with
  | nil => cases h
  | cons p t ih =>
    obtain ⟨k', v'⟩ := p
    by_cases hk : k = k'
    · subst hk
      simp [dictGet] at h
      subst h
      exact List.mem_cons_self _ _
    · simp only [dictGet, if_neg hk] at h
      exact List.mem_cons_of_mem _ (ih h)

theorem mem_dictGet_of_nodup {κ ν : Type} [DecidableEq κ] (k : κ) (m : List (κ × ν))
    (g : ν) (hnd : (m.map Prod.fst).Nodup) (h : (k, g) ∈ m) :
    dictGet k m = some g := by
  induction m with
  | nil => cases h
  | cons p t ih =>
    obtain ⟨k', v'⟩ := p
    simp only [List.map_cons, List.nodup_cons] at hnd
    rcases List.mem_cons.mp h with heq | hmem
    · injection heq with h1 h2
      subst h1; subst h2
      simp [dictGet]
    · have hk : k ≠ k' := by
        intro hEq
        subst hEq
        exact hnd.1 (List.mem_map.mpr ⟨(k, g), hmem, rfl⟩)
      simp only [dictGet, if_neg hk]
      exact ih hnd.2 hmem

theorem keys_dictSet {κ ν : Type} [DecidableEq κ] (m : List (κ × ν)) (k : κ) (v : ν) :
    (dictSet m k v).map Prod.fst =
      if k ∈ m.map Prod.fst then m.map Prod.fst else m.map Prod.fst ++ [k] := by
  induction m with
  | nil => simp [dictSet]
  | cons p t ih =>
    obtain ⟨k', v'⟩ := p
    by_cases hk : k' = k
    · subst hk
      simp [dictSet]
    · have : ¬ k = k' := fun h => hk h.symm
      by_cases hmem : k ∈ t.map Prod.fst <;>
        simp [dictSet, hk, this, hmem, ih]

theorem mem_dictSet {κ ν : Type} [DecidableEq κ] (m : List (κ × ν)) (k : κ) (v : ν)
    (p : κ × ν) (h : p ∈ dictSet m k v) : p ∈ m ∨ p = (k, v) := by
  induction m with
  | nil => simpa [dictSet] using h
  | cons q t ih =>
    obtain ⟨k', v'⟩ := q
    by_cases hk : k' = k
    · subst hk
      rcases List.mem_cons.mp (by simpa [dictSet] using h) with heq | hmem
      · right; exact heq
      · left; exact List.mem_cons_of_mem _ hmem
    · rcases List.mem_cons.mp (by simpa [dictSet, hk] using h) with heq | hmem
      · left; exact heq ▸ List.mem_cons_self _ _
      · rcases ih hmem with hm | he
        · left; exact List.mem_cons_of_mem _ hm
        · right; exact he

theorem foldl_pushGroup_source (ms : List SearchResult) (g : GroupData) :
    (ms.foldl pushGroup g).source = g.source := by
  induction ms generalizing g with
  | nil => rfl
  | cons r rs ih => simp [List.foldl_cons, ih, pushGroup]

theorem foldl_pushGroup_passages (ms : List SearchResult) (g : GroupData) :
    (ms.foldl pushGroup g).passages = g.passages ++ ms.map SearchResult.text := by
  induction ms generalizing g with
  | nil => simp
  | cons r rs ih => simp [List.foldl_cons, ih, pushGroup]

theorem foldl_pushGroup_scores (ms : List SearchResult) (g : GroupData) :
    (ms.foldl pushGroup g).scores = g.scores ++ ms.map SearchResult.score := by
  induction ms generalizing g with
  | nil => simp
  | cons r rs ih => simp [List.foldl_cons, ih, pushGroup]

theorem sameSource_cons (k : String) (r : SearchResult) (rs : List SearchResult) :
    sameSource k (r :: rs) =
      if sourceKey r = k then r :: sameSource k rs else sameSource k rs := by
  by_cases h : sourceKey r = k <;> simp [sameSource, List.filter, h]

/-- Characterisation of the grouping fold: the entry stored under key `k` is
the accumulator entry (or a fresh group seeded by the first `k`-member) with
every `k`-member pushed, in order. -/
theorem dictGet_foldl_addToGroups (rs : List SearchResult) :
    ∀ (acc : List (String × GroupData)) (k : String),
      dictGet k (rs.foldl addToGroups acc) =
        match dictGet k acc with
        | some g => some ((sameSource k rs).foldl pushGroup g)
        | none =>
          match sameSource k rs with
          | [] => none
          | r0 :: _ => some ((sameSource k rs).foldl pushGroup (emptyGroup k r0)) := by
  induction rs with
  | nil =>
    intro acc k
    cases hget : dictGet k acc <;> simp [sameSource, hget]
  | cons r rs ih =>
    intro acc k
    by_cases hk : sourceKey r = k
    · subst hk
      rw [List.foldl_cons, ih]
      cases hget : dictGet (sourceKey r) acc with
      | some g =>
        have hset : dictGet (sourceKey r) (addToGroups acc r) = some (pushGroup g r) := by
          simp [addToGroups, hget, dictGet_dictSet]
        rw [hset, sameSource_cons, if_pos rfl]
        simp [List.foldl_cons]
      | none =>
        have hset : dictGet (sourceKey r) (addToGroups acc r) =
            some (pushGroup (emptyGroup (sourceKey r) r) r) := by
          simp [addToGroups, hget, dictGet_dictSet]
        rw [hset, sameSource_cons, if_pos rfl]
        simp [List.foldl_cons]
    · rw [List.foldl_cons, ih]
      have hset : dictGet k (addToGroups acc r) = dictGet k acc := by
        have hne : k ≠ sourceKey r := fun h => hk h.symm
        cases hget : dictGet (sourceKey r) acc <;>
          simp [addToGroups, hget, dictGet_dictSet, hne]
      rw [hset, sameSource_cons, if_neg hk]

theorem groups_source_eq_key (rs : List SearchResult) :
    ∀ acc, (∀ p ∈ acc, (Prod.snd p).source = p.1) →
      ∀ p ∈ rs.foldl addToGroups acc, (Prod.snd p).source = p.1 := by
  induction rs with
  | nil => intro acc h; exact h
  | cons r rs ih =>
    intro acc h
    apply ih
    intro p hp
    unfold addToGroups at hp
    cases hget : dictGet (sourceKey r) acc with
    | some g =>
      rw [hget] at hp
      rcases mem_dictSet _ _ _ p hp with hm | he
      · exact h p hm
      · subst he
        have := h _ (dictGet_some_mem _ _ _ hget)
        simpa [pushGroup] using this
    | none =>
      rw [hget] at hp
      rcases mem_dictSet _ _ _ p hp with hm | he
      · exact h p hm
      · subst he
        simp [pushGroup, emptyGroup]

theorem groups_keys_nodup (rs : List SearchResult) :
    ∀ acc : List (String × GroupData), ((acc.map Prod.fst).Nodup) →
      (((rs.foldl addToGroups acc).map Prod.fst)).Nodup := by
  induction rs with
  | nil => intro acc h; exact h
  | cons r rs ih =>
    intro acc h
    apply ih
    unfold addToGroups
    cases hget : dictGet (sourceKey r) acc with
    | some g =>
      have hmem : sourceKey r ∈ acc.map Prod.fst :=
        List.mem_map.mpr ⟨_, dictGet_some_mem _ _ _ hget, rfl⟩
      rw [keys_dictSet, if_pos hmem]
      exact h
    | none =>
      have hmem : sourceKey r ∉ acc.map Prod.fst :=
        (dictGet_none_iff _ _).mp hget
      rw [keys_dictSet, if_neg hmem]
      simp [List.nodup_append, h, hmem]

theorem sameSource_eq_nil_iff (k : String) (rs : List SearchResult) :
    sameSource k rs = [] ↔ k ∉ rs.map sourceKey := by
  simp only [sameSource, List.filter_eq_nil_iff, decide_eq_true_eq, List.mem_map]
  constructor
  · rintro h ⟨r, hr, rfl⟩
    exact h r hr rfl
  · intro h r hr hk
    exact h ⟨r, hr, hk⟩

theorem groups_keys_mem (rs : List SearchResult) (k : String) :
    k ∈ (rs.foldl addToGroups []).map Prod.fst ↔ k ∈ rs.map sourceKey := by
  have hchar := dictGet_foldl_addToGroups rs [] k
  have hnil : dictGet k ([] : List (String × GroupData)) = none := rfl
  rw [hnil] at hchar
  constructor
  · intro hmem
    by_contra hnot
    have : sameSource k rs = [] := (sameSource_eq_nil_iff k rs).mpr hnot
    rw [this] at hchar
    exact ((dictGet_none_iff k _).mp hchar) hmem
  · intro hmem
    by_contra hnot
    have hnone : dictGet k (rs.foldl addToGroups []) = none := by
      cases hg : dictGet k (rs.foldl addToGroups []) with
      | none => rfl
      | some g =>
        exact absurd (List.mem_map.mpr ⟨_, dictGet_some_mem _ _ _ hg, rfl⟩) hnot
    rw [hnone] at hchar
    cases hss : sameSource k rs with
    | nil => exact ((sameSource_eq_nil_iff k rs).mp hss) hmem
    | cons r0 t => rw [hss] at hchar; cases hchar

theorem maxScore_append_single (xs : List ℚ) (s : ℚ) (h : xs ≠ []) :
    maxScore (xs ++ [s]) = max (maxScore xs) s := by
  cases xs with
  | nil => exact absurd rfl h
  | cons x t => simp [maxScore, List.foldl_append]

theorem dictSet_append_of_not_mem {κ ν : Type} [DecidableEq κ] (m : List (κ × ν))
    (k : κ) (v : ν) (h : k ∉ m.map Prod.fst) : dictSet m k v = m ++ [(k, v)] := by
  induction m with
  | nil => rfl
  | cons q t ih =>
    obtain ⟨k', v'⟩ := q
    simp only [List.map_cons, List.mem_cons, not_or] at h
    have hne : ¬ k' = k := fun hEq => h.1 hEq.symm
    simp [dictSet, hne, ih h.2]

theorem map_measure_dictSet {κ ν : Type} [DecidableEq κ] (f : ν → ℚ)
    (m : List (κ × ν)) (k : κ) (g v : ν)
    (hg : dictGet k m = some g) (hf : f v = f g) :
    (dictSet m k v).map (fun p => f p.2) = m.map (fun p => f p.2) := by
  induction m with
  | nil => cases hg
  | cons q t ih =>
    obtain ⟨k', v'⟩ := q
    by_cases hk : k = k'
    · subst hk
      simp [dictGet] at hg
      subst hg
      simp [dictSet, hf]
    · have hk' : ¬ k' = k := fun h => hk h.symm
      simp only [dictGet, if_neg hk] at hg
      simp [dictSet, hk', ih hg]

theorem grouped_maxes_sorted (rs : List SearchResult) :
    ∀ acc : List (String × GroupData),
      List.Pairwise (fun a b => b ≤ a)
        (acc.map (fun p => maxScore (Prod.snd p).scores)) →
      (∀ r ∈ rs, ∀ x ∈ acc.map (fun p => maxScore (Prod.snd p).scores),
        r.score ≤ x) →
      (∀ p ∈ acc, (Prod.snd p).scores ≠ []) →
      List.Pairwise (fun a b => SearchResult.score b ≤ SearchResult.score a) rs →
      List.Pairwise (fun a b => b ≤ a)
        ((rs.foldl addToGroups acc).map (fun p => maxScore (Prod.snd p).scores)) := by
  induction rs with
  | nil => intro acc hsorted _ _ _; exact hsorted
  | cons r rs ih =>
    intro acc hsorted hbound hne hrs
    rcases List.pairwise_cons.mp hrs with ⟨hrhead, hrtail⟩
    rw [List.foldl_cons]
    cases hget : dictGet (sourceKey r) acc with
    | some g =>
      have hgmem : (sourceKey r, g) ∈ acc := dictGet_some_mem _ _ _ hget
      have hgle : r.score ≤ maxScore g.scores :=
        hbound r (List.mem_cons_self _ _) _ (List.mem_map.mpr ⟨_, hgmem, rfl⟩)
      have hmax : maxScore (pushGroup g r).scores = maxScore g.scores := by
        simp only [pushGroup]
        rw [maxScore_append_single _ _ (hne _ hgmem)]
        exact max_eq_left hgle
      have hMeq : (addToGroups acc r).map (fun p => maxScore (Prod.snd p).scores) =
          acc.map (fun p => maxScore (Prod.snd p).scores) := by
        unfold addToGroups
        rw [hget]
        exact map_measure_dictSet (fun gd => maxScore gd.scores) acc _ g
          (pushGroup g r) hget hmax
      apply ih
      · rw [hMeq]; exact hsorted
      · intro r' hr' x hx
        rw [hMeq] at hx
        exact hbound r' (List.mem_cons_of_mem _ hr') x hx
      · intro p hp
        rcases mem_dictSet _ _ _ p (by
          have : addToGroups acc r = dictSet acc (sourceKey r) (pushGroup g r) := by
            unfold addToGroups; rw [hget]
          rw [← this]; exact hp) with hm | he
        · exact hne p hm
        · subst he; simp [pushGroup]
      · exact hrtail
    | none =>
      have hknotin : sourceKey r ∉ acc.map Prod.fst := (dictGet_none_iff _ _).mp hget
      have hacc' : addToGroups acc r =
          acc ++ [(sourceKey r, pushGroup (emptyGroup (sourceKey r) r) r)] := by
        unfold addToGroups
        rw [hget]
        exact dictSet_append_of_not_mem acc _ _ hknotin
      have hnewmax : maxScore (pushGroup (emptyGroup (sourceKey r) r) r).scores =
          r.score := by
        simp [pushGroup, emptyGroup, maxScore]
      apply ih
      · rw [hacc', List.map_append]
        rw [List.pairwise_append]
        refine ⟨hsorted, by simp, ?_⟩
        intro x hx y hy
        simp only [List.map_cons, List.map_nil, List.mem_singleton] at hy
        rw [hy, hnewmax]
        exact hbound r (List.mem_cons_self _ _) x hx
      · intro r' hr' x hx
        rw [hacc', List.map_append] at hx
        rcases List.mem_append.mp hx with hx | hx
        · exact hbound r' (List.mem_cons_of_mem _ hr') x hx
        · simp only [List.map_cons, List.map_nil, List.mem_singleton] at hx
          rw [hx, hnewmax]
          exact hrhead r' hr'
      · intro p hp
        rw [hacc'] at hp
        rcases List.mem_append.mp hp with hm | hm
        · exact hne p hm
        · simp only [List.mem_singleton] at hm
          subst hm
          simp [pushGroup]
      · exact hrtail

/-- C6 (amended): `group_results_by_source` produces exactly one aggregated
result per distinct source key, each group's score is the maximum score among
its members (not the sum), and passages within a group keep their original
relative order.  The output is in first-occurrence order of the source keys
(the dict's insertion order — the function performs no sort), which coincides
with descending group max score whenever the input list is sorted by score
descending, but not for arbitrary inputs (see the counterexample). -/
theorem group_results_by_source_correct (results : List SearchResult) :
    ((group_results_by_source results).map GroupedResult.source).Nodup ∧
    (∀ k, k ∈ (group_results_by_source results).map GroupedResult.source ↔
      k ∈ results.map sourceKey) ∧
    (∀ g ∈ group_results_by_source results,
      g.passages = (sameSource g.source results).map SearchResult.text ∧
      g.score = maxScore ((sameSource g.source results).map SearchResult.score)) ∧
    (List.Pairwise (fun a b => SearchResult.score b ≤ SearchResult.score a) results →
      List.Pairwise (fun a b => GroupedResult.score b ≤ GroupedResult.score a)
        (group_results_by_source results)) := by
  have hsrc : ∀ p ∈ results.foldl addToGroups [], (Prod.snd p).source = p.1 :=
    groups_source_eq_key results [] (by intro p hp; cases hp)
  have hnd : ((results.foldl addToGroups []).map Prod.fst).Nodup :=
    groups_keys_nodup results [] (by simp)
  have hmapsrc : (group_results_by_source results).map GroupedResult.source =
      (results.foldl addToGroups []).map Prod.fst := by
    unfold group_results_by_source
    rw [List.map_map, List.map_map]
    apply List.map_congr_left
    intro p hp
    simp [formatGroup, hsrc p hp]
  refine ⟨?_, ?_, ?_, ?_⟩
  · rw [hmapsrc]; exact hnd
  · intro k; rw [hmapsrc]; exact groups_keys_mem results k
  · intro g hg
    unfold group_results_by_source at hg
    rcases List.mem_map.mp hg with ⟨gd, hgd, rfl⟩
    rcases List.mem_map.mp hgd with ⟨p, hp, rfl⟩
    have hksrc : (formatGroup p.2).source = p.1 := by simp [formatGroup, hsrc p hp]
    have hget : dictGet p.1 (results.foldl addToGroups []) = some p.2 :=
      mem_dictGet_of_nodup p.1 _ p.2 hnd (by rw [Prod.mk.eta]; exact hp)
    have hchar := dictGet_foldl_addToGroups results [] p.1
    rw [show dictGet p.1 ([] : List (String × GroupData)) = none from rfl] at hchar
    rw [hget] at hchar
    cases hss : sameSource p.1 results with
    | nil => rw [hss] at hchar; cases hchar
    | cons r0 t =>
      rw [hss] at hchar
      injection hchar with hchar
      constructor
      · rw [hksrc, hss]
        show (formatGroup p.2).passages = _
        have hpass : (formatGroup p.2).passages = p.2.passages := rfl
        rw [hpass, hchar, foldl_pushGroup_passages]
        simp [emptyGroup]
      · rw [hksrc, hss]
        show (formatGroup p.2).score = _
        have hsc : (formatGroup p.2).score = maxScore p.2.scores := rfl
        rw [hsc, hchar, foldl_pushGroup_scores]
        simp [emptyGroup]
  · intro hsorted
    have hM := grouped_maxes_sorted results [] (by simp) (by simp) (by simp) hsorted
    unfold group_results_by_source
    rw [List.pairwise_map, List.pairwise_map]
    exact List.pairwise_map.mp hM

/-- A result from source "B" with the lower score, listed first. -/
def lowFirst : SearchResult := ⟨"pB", 0.5, ⟨some "B", some "eB"⟩⟩

/-- A result from source "A" with the higher score, listed second. -/
def highSecond : SearchResult := ⟨"pA", 0.9, ⟨some "A", some "eA"⟩⟩

/-- Counterexample to C6 as stated: `group_results_by_source` never sorts, so
on an input that is not already in descending-score order the output group
scores are not in descending order. -/
theorem group_results_order_cex :
    (group_results_by_source [lowFirst, highSecond]).map GroupedResult.score =
      [0.5, 0.9] ∧
    ¬ List.Pairwise (fun a b => GroupedResult.score b ≤ GroupedResult.score a)
      (group_results_by_source [lowFirst, highSecond]) := by
  have hmap : (group_results_by_source [lowFirst, highSecond]).map
      GroupedResult.score = [0.5, 0.9] := by
    norm_num [group_results_by_source, addToGroups, dictGet, dictSet, sourceKey,
      pushGroup, emptyGroup, formatGroup, maxScore, lowFirst, highSecond, List.foldl,
      (show ("A" : String) ≠ "B" from by decide),
      (show ("B" : String) ≠ "A" from by decide)]
  refine ⟨hmap, ?_⟩
  intro hpw
  have h2 : List.Pairwise (fun x y : ℚ => y ≤ x)
      ((group_results_by_source [lowFirst, highSecond]).map GroupedResult.score) :=
    List.pairwise_map.mpr hpw
  rw [hmap] at h2
  rcases List.pairwise_cons.mp h2 with ⟨hh, _⟩
  have h09 := hh 0.9 (by simp)
  norm_num at h09

/-- Witness for C6 (amended): on a descending-score input the output group
scores are descending. -/
theorem group_results_by_source_correct_witness :
    List.Pairwise (fun a b => SearchResult.score b ≤ SearchResult.score a)
      [highSecond, lowFirst] ∧
    List.Pairwise (fun a b => GroupedResult.score b ≤ GroupedResult.score a)
      (group_results_by_source [highSecond, lowFirst]) :=
  ⟨by norm_num [highSecond, lowFirst, List.pairwise_cons],
   (group_results_by_source_correct [highSecond, lowFirst]).2.2.2
     (by norm_num [highSecond, lowFirst, List.pairwise_cons])⟩

/-! ## GoogleDriveHandler retry loops (`src/storage/drive.py`)

Every remote method wraps its API call in `while retry_count < max_retries`
(`max_retries = 5`): on an exception from the tuple `(HttpError,
BrokenPipeError, ConnectionError)` it increments the counter and, once the
counter reaches `max_retries`, re-raises; any other exception is not caught by
the loop.  `upload_file`, `list_files`, `download_file`, `update_metadata` and
`get_metadata` have an outer `except Exception: ... raise` that re-raises, so
their outcome is the loop's outcome; `delete_file` alone ends in
`except Exception: ... return False`.  The remote call itself is abstracted as
a script mapping the attempt number to its outcome; sleeping and logging are
irrelevant to the claims and omitted. -/

/-- The Python exception classes relevant to these loops.  `httpError` is
`googleapiclient.errors.HttpError`, raised for any non-2xx API response —
including 401/403 authentication/authorization failures. -/
inductive PyErr where
  | httpError (status : Nat)
  | brokenPipeError
  | connectionError
  | valueError
  | otherError
  deriving DecidableEq, Repr

/-- Membership in the `except (HttpError, BrokenPipeError, ConnectionError)`
tuple of the retry loops. -/
def retryCaught : PyErr → Bool
  | .httpError _ => true
  | .brokenPipeError => true
  | .connectionError => true
  | .valueError => false
  | .otherError => false

/-- Outcome of one attempt of the wrapped remote call. -/
inductive Attempt (α : Type) where
  | ok (a : α)
  | raised (e : PyErr)
  deriving DecidableEq, Repr

/-- Outcome of the whole loop: a returned value, a propagated exception, or
falling off the `while` (unreachable for `max_retries > 0`). -/
inductive RunOutcome (α : Type) where
  | ok (a : α)
  | raised (e : PyErr)
  | fellOff
  deriving DecidableEq, Repr

/-- `max_retries = 5` in every `GoogleDriveHandler` method. -/
def MAX_RETRIES : Nat := 5

/-- The common retry loop, with `fuel = max_retries - retry_count`; returns
the outcome and the number of invocations of the remote call.  On a caught
exception with the counter at its limit the loop re-raises; an uncaught
exception propagates at once. -/
def retryLoop {α : Type} : Nat → (Nat → Attempt α) → RunOutcome α × Nat
  | 0, _ => (.fellOff, 0)
  | f + 1, script =>
    match script 0 with
    | .ok a => (.ok a, 1)
    | .raised e =>
      if retryCaught e then
        if f = 0 then (.raised e, 1)
        else
          let r := retryLoop f (fun j => script (j + 1))
          (r.1, r.2 + 1)
      else (.raised e, 1)

/-- `GoogleDriveHandler.download_file` (lines 226–266): the loop with
`max_retries = 5`; the outer handler logs and re-raises, so the outcome is the
loop's. -/
def download_file {α : Type} (script : Nat → Attempt α) : RunOutcome α × Nat :=
  retryLoop MAX_RETRIES script

/-- `GoogleDriveHandler.upload_file` (lines 91–166): same loop shape, outer
handler re-raises. -/
def upload_file {α : Type} (script : Nat → Attempt α) : RunOutcome α × Nat :=
  retryLoop MAX_RETRIES script

/-- `GoogleDriveHandler.list_files` (lines 168–224): same loop shape, outer
handler re-raises. -/
def list_files {α : Type} (script : Nat → Attempt α) : RunOutcome α × Nat :=
  retryLoop MAX_RETRIES script

/-- What `delete_file` can deliver to its caller: a returned boolean or a
propagated exception. -/
inductive DeleteResult where
  | value (b : Bool)
  | raisedErr (e : PyErr)
  deriving DecidableEq, Repr

/-- `GoogleDriveHandler.delete_file` (lines 344–378): the same loop, but
`return False` after it and the outer handler is `except Exception: ...
return False`, so the caller receives a `Bool` and never an exception. -/
def delete_file {α : Type} (script : Nat → Attempt α) : DeleteResult × Nat :=
  match retryLoop MAX_RETRIES script with
  | (.ok _, n) => (.value true, n)
  | (.raised _, n) => (.value false, n)
  | (.fellOff, n) => (.value false, n)

/-- A collaborator that fails exactly `n` times with `e`, then returns `a`. -/
def failThenOk {α : Type} (n : Nat) (e : PyErr) (a : α) : Nat → Attempt α :=
  fun i => if i < n then .raised e else .ok a

theorem retryLoop_failThenOk {α : Type} (e : PyErr) (a : α)
    (he : retryCaught e = true) :
    ∀ (n f : Nat), n < f → retryLoop f (failThenOk n e a) = (.ok a, n + 1) := by
  intro n
  induction n with
  | zero =>
    intro f hf
    cases f with
    | zero => omega
    | succ f' => simp [retryLoop, failThenOk]
  | succ m ih =>
    intro f hf
    cases f with
    | zero => omega
    | succ f' =>
      have hshift : (fun j => failThenOk (m + 1) e a (j + 1)) = failThenOk m e a := by
        funext j
        simp [failThenOk, Nat.add_lt_add_iff_right]
      have hf' : ¬ f' = 0 := by omega
      have hfirst : failThenOk (m + 1) e a 0 = .raised e := by
        simp [failThenOk]
      have hstep : retryLoop (f' + 1) (failThenOk (m + 1) e a) =
          ((retryLoop f' (fun j => failThenOk (m + 1) e a (j + 1))).1,
           (retryLoop f' (fun j => failThenOk (m + 1) e a (j + 1))).2 + 1) := by
        simp [retryLoop, hfirst, he, hf']
      rw [hstep, hshift, ih f' (by omega)]

theorem retryLoop_allFail {α : Type} (e : PyErr) (he : retryCaught e = true) :
    ∀ f : Nat, 0 < f →
      retryLoop (α := α) f (fun _ => .raised e) = (.raised e, f) := by
  intro f
  induction f with
  | zero => omega
  | succ f' ih =>
    intro _
    by_cases h0 : f' = 0
    · subst h0
      simp [retryLoop, he]
    · simp only [retryLoop, he, if_true, if_neg h0]
      rw [ih (by omega)]

theorem retryLoop_noncaught {α : Type} (e : PyErr) (script : Nat → Attempt α)
    (he : retryCaught e = false) (h0 : script 0 = .raised e) (f : Nat)
    (hf : 0 < f) : retryLoop f script = (.raised e, 1) := by
  cases f with
  | zero => omega
  | succ f' => simp [retryLoop, h0, he]

/-- Counterexample to C3 as stated: after `max_retries` transient failures
`delete_file` does not raise the last error — the outer handler swallows it
and the caller receives `False`. -/
theorem drive_retry_delete_swallows_cex :
    delete_file (α := Bool) (fun _ => .raised .connectionError) =
      (.value false, MAX_RETRIES) ∧
    ∀ e : PyErr,
      (delete_file (α := Bool) (fun _ => .raised .connectionError)).1 ≠
        .raisedErr e := by
  refine ⟨by decide, ?_⟩
  intro e h
  rw [show (delete_file (α := Bool) (fun _ => .raised .connectionError)).1 =
    .value false from by decide] at h
  simp at h

/-- C3 (amended): with exactly `n < max_retries` transient failures then
success, the remote call is invoked exactly `n + 1` times and the wrapper
succeeds — for `download_file` (and the identically shaped
`upload_file`/`list_files` loops) and for `delete_file`.  With `max_retries`
transient failures, `download_file` raises the last error after exactly
`max_retries` attempts, but `delete_file` returns `False` after
`max_retries` attempts instead of raising (see the counterexample). -/
theorem drive_retry_controller {α : Type} (n : Nat) (e : PyErr) (a : α)
    (hn : n < MAX_RETRIES) (he : retryCaught e = true) :
    download_file (failThenOk n e a) = (.ok a, n + 1) ∧
    download_file (α := α) (fun _ => .raised e) = (.raised e, MAX_RETRIES) ∧
    delete_file (failThenOk n e a) = (.value true, n + 1) ∧
    delete_file (α := α) (fun _ => .raised e) = (.value false, MAX_RETRIES) := by
  have h1 := retryLoop_failThenOk e a he n MAX_RETRIES hn
  have h2 := retryLoop_allFail (α := α) e he MAX_RETRIES (by decide)
  refine ⟨h1, h2, ?_, ?_⟩
  · unfold delete_file
    rw [h1]
  · unfold delete_file
    rw [h2]

/-- Witness for C3 (amended): two transient connection failures, then
success. -/
theorem drive_retry_controller_witness :
    (2 < MAX_RETRIES ∧ retryCaught .connectionError = true) ∧
    download_file (failThenOk 2 .connectionError true) = (.ok true, 3) ∧
    download_file (α := Bool) (fun _ => .raised .connectionError) =
      (.raised .connectionError, MAX_RETRIES) ∧
    delete_file (failThenOk 2 .connectionError true) = (.value true, 3) ∧
    delete_file (α := Bool) (fun _ => .raised .connectionError) =
      (.value false, MAX_RETRIES) :=
  ⟨⟨by decide, by decide⟩,
   drive_retry_controller 2 .connectionError true (by decide) (by decide)⟩

/-- Counterexample to C9 as stated: an authentication failure surfaced as an
HTTP-layer error (`HttpError`, e.g. status 401) is inside the caught tuple and
IS retried — the call is attempted `max_retries = 5` times, not once. -/
theorem drive_auth_error_retried_cex :
    upload_file (α := Bool) (fun _ => .raised (.httpError 401)) =
      (.raised (.httpError 401), MAX_RETRIES) ∧ MAX_RETRIES ≠ 1 :=
  ⟨by decide, by decide⟩

/-- C9 (amended): an exception outside the `(HttpError, BrokenPipeError,
ConnectionError)` tuple — e.g. a `ValueError` from malformed input — is never
retried: it propagates to the caller after exactly one attempt, shown for
`upload_file` and `list_files`.  An HTTP-layer error, which includes HTTP
401/403 authentication failures, is classified transient and retried (see the
counterexample). -/
theorem drive_nontransient_propagates {α : Type} (e : PyErr)
    (script : Nat → Attempt α) (he : retryCaught e = false)
    (h0 : script 0 = .raised e) :
    upload_file script = (.raised e, 1) ∧ list_files script = (.raised e, 1) :=
  ⟨retryLoop_noncaught e script he h0 MAX_RETRIES (by decide),
   retryLoop_noncaught e script he h0 MAX_RETRIES (by decide)⟩

/-- Witness for C9 (amended): a `ValueError` on the first attempt propagates
immediately. -/
theorem drive_nontransient_propagates_witness :
    (retryCaught .valueError = false ∧
      (fun _ : Nat => Attempt.raised (α := Bool) .valueError) 0 =
        .raised .valueError) ∧
    upload_file (α := Bool) (fun _ => .raised .valueError) =
      (.raised .valueError, 1) ∧
    list_files (α := Bool) (fun _ => .raised .valueError) =
      (.raised .valueError, 1) :=
  ⟨⟨by decide, rfl⟩,
   drive_nontransient_propagates .valueError (fun _ => .raised .valueError)
     (by decide) rfl⟩

end SlackAIDocs
